import Mathlib

/-!
Shallow embedding of the algorithmic fragments of the `ubergeekism` repository
(`src/utils.py` and `src/run_all.py`) together with proofs of the specified
properties of the adjacency builder, the cyclic `tour` generator, the hull-edge
triangle filter, the trajectory assembler and the `--notsp` error branch.

Python values are embedded as follows: a Python `dict` mapping points to
neighbor lists becomes an association list `List (α × List α)` in insertion
order (keys unique, values appended at the end); a Python `set` being iterated
becomes a `List` of its elements (multiplicity and membership facts proved here
do not depend on the iteration order); a generator becomes the list of the
values it yields, with `Option` marking the runs that raise; points are an
arbitrary type `α` with decidable equality, standing for the rounded coordinate
pairs of the source.
-/

namespace Ubergeekism

variable {α : Type} [DecidableEq α]

/-- One Python statement pair `graph[k] = graph.get(k, []); graph[k].append(v)`
from `adjacency_from_set` (`src/utils.py` lines 21-24): append `v` to the list
stored at key `k`, inserting the key at the end with list `[v]` when absent. -/
def insertAdj : List (α × List α) → α → α → List (α × List α)
  | [], k, v => [(k, [v])]
  | (k', l) :: rest, k, v =>
    if k = k' then (k', l ++ [v]) :: rest else (k', l) :: insertAdj rest k v

/-- `adjacency_from_set` (`src/utils.py` lines 18-25): fold over the segments,
inserting both directions of every segment. -/
def adjacency_from_set (segments : List (α × α)) : List (α × List α) :=
  segments.foldl (fun g s => insertAdj (insertAdj g s.1 s.2) s.2 s.1) []

/-- Python dict read `graph[a]`, defaulting to `[]` for an absent key (used to
state neighbor-list facts; an absent key has the empty neighbor list). -/
def lookupAdj : List (α × List α) → α → List α
  | [], _ => []
  | (k', l) :: rest, k => if k = k' then l else lookupAdj rest k

/-- The key sequence of the embedded dict, in insertion order. -/
def keys (g : List (α × List α)) : List α := g.map Prod.fst

/-- Python `set.add`: insert an element unless already present. -/
def insertNew (vs : List α) (x : α) : List α := if x ∈ vs then vs else vs ++ [x]

/-- `vertices_from_set` (`src/utils.py` lines 28-33): collect every segment
endpoint into a set, embedded as a duplicate-free list. -/
def vertices_from_set (segments : List (α × α)) : List α :=
  segments.foldl (fun vs s => insertNew (insertNew vs s.1) s.2) []

/-- The pair list produced by the body of `tour` on a non-empty list:
`zip(lst, lst[1:] + [lst[0]])` (`src/utils.py` line 38). -/
def tourPairs : List α → List (α × α)
  | [] => []
  | x :: xs => (x :: xs).zip (xs ++ [x])

/-- `tour` (`src/utils.py` lines 36-39). Iterating the generator materializes
its yields into a list; on the empty list the expression `lst[0]` raises an
IndexError, embedded as `none`. -/
def tour (lst : List α) : Option (List (α × α)) :=
  match lst with
  | [] => none
  | x :: xs => some (tourPairs (x :: xs))

/-- `adjoin_hull` (`src/run_all.py` lines 159-163): a triangle (given as the
list of its three vertices in iteration order) adjoins the hull when one of its
`tour` edges occurs, in either orientation, among the hull edges. -/
def adjoin_hull (hullEdges : List (α × α)) (triangle : List α) : Bool :=
  (tourPairs triangle).any fun pq =>
    decide (pq ∈ hullEdges) || decide ((pq.2, pq.1) ∈ hullEdges)

/-- The filter step of `src/run_all.py` lines 155-166: `hull_edges` is
`list(tour(hull))` and `triangulated` keeps the triangles for which
`adjoin_hull` is false (`ifilterfalse`). -/
def triangulated (hull : List α) (triangles : List (List α)) : List (List α) :=
  triangles.filter fun t => ! adjoin_hull (tourPairs hull) t

/-- The trajectory assembly loop of `src/run_all.py` lines 121-125: for every
consecutive pair of the permutation (wrap-around included) run the pathfinder
and extend `traj` by the returned sub-path, `traj += p`. The pathfinder is
abstracted as the function giving the sub-path for a start/end pair; the cost
it also returns is unused by the loop. -/
def assembleTraj (astar : α → α → List α) (perm : List α) : List α :=
  (tourPairs perm).foldl (fun traj se => traj ++ astar se.1 se.2) []

/-- Modelled from the spec: `shortpath.astar` is not under `src/`; §4.4 states
it "returns an ordered sequence of Points forming a lowest-cost walk from start
to end using only real graph edges". On a complete graph over three vertices
`0, 1, 2` the lowest-cost walk between two distinct vertices is the direct
edge, so the returned walk is `[start, end]` (and `[start]` when the endpoints
coincide). -/
def astarK3 (s e : ℕ) : List ℕ := if s = e then [s] else [s, e]

/-- Modelled from the spec: `ants.search` is not under `src/`; §4.3 states each
ant "constructs a full permutation by repeated nearest-choice selection": at
every step it picks one still-unvisited vertex (greedily or by roulette-wheel
sampling, abstracted here as an arbitrary index choice reduced modulo the pool
size) and removes it from the unvisited pool until the pool is empty. -/
def constructPerm (choose : List α → ℕ) : List α → List α
  | [] => []
  | x :: xs =>
    (x :: xs).get ⟨choose (x :: xs) % (xs.length + 1), Nat.mod_lt _ (Nat.succ_pos _)⟩ ::
      constructPerm choose ((x :: xs).eraseIdx (choose (x :: xs) % (xs.length + 1)))
termination_by r => r.length
decreasing_by
  have h : choose (x :: xs) % (xs.length + 1) < xs.length + 1 := Nat.mod_lt _ (Nat.succ_pos _)
  simp only [List.length_eraseIdx, List.length_cons, if_pos h]
  omega

/-- Modelled from the spec: `ants.search` (§4.3) runs its ants, each building a
permutation of the graph's vertex list, tracks "the best tour and its cost seen
across all iterations", and returns that best tour. Each ant's sequence of
greedy/roulette decisions is abstracted as one choice function (`choose0` for
the first ant, guaranteed by `num_ants ≥ 1`, then `chooses`); the best-tour
reduction keeps the candidate of lower cost. -/
def acoSearch (cost : List α → ℤ) (chooses : List (List α → ℕ)) (choose0 : List α → ℕ)
    (g : List (α × List α)) : List α :=
  (chooses.map fun c => constructPerm c (keys g)).foldl
    (fun best cand => if cost cand < cost best then cand else best)
    (constructPerm choose0 (keys g))

/-- `error_codes` (`src/run_all.py` line 38). -/
def error_codes : List (String × ℕ) := [("NOTSP", 100)]

/-- Python dict read `d[k]`: `some v` when the key is present, `none` embedding
the KeyError raised for an absent key. -/
def dictLookup (d : List (String × ℕ)) (k : String) : Option ℕ :=
  match d with
  | [] => none
  | (k', v) :: rest => if k = k' then some v else dictLookup rest k

/-- The no-TSP error branch of `src/run_all.py` lines 94-97: when `--notsp` is
set but the tour or the pheromones input is missing, the program evaluates
`sys.exit(error_codes["NO-TSP"])`. `Except.ok c` embeds a clean exit with
status `c`; `Except.error` embeds the uncaught KeyError raised by the dict
lookup itself. -/
def notspBranch : Except String ℕ :=
  match dictLookup error_codes "NO-TSP" with
  | some c => Except.ok c
  | none => Except.error "KeyError: NO-TSP"

example : adjacency_from_set [((0 : ℕ), 1), (1, 2), (0, 1)] =
    [(0, [1, 1]), (1, [0, 2, 0]), (2, [1])] := by decide

/-! ### Neighbor-list multiplicities of `adjacency_from_set` -/

lemma count_lookupAdj_insertAdj (g : List (α × List α)) (k v a b : α) :
    (lookupAdj (insertAdj g k v) a).count b =
      (lookupAdj g a).count b + (if a = k ∧ b = v then 1 else 0) := by
  induction g with
  | nil =>
    by_cases hak : a = k <;> by_cases hbv : b = v <;>
      simp [insertAdj, lookupAdj, hak, hbv, List.count_cons]
  | cons p rest ih =>
    obtain ⟨k', l⟩ := p
    by_cases hkk : k = k'
    · subst hkk
      by_cases hak : a = k
      · subst hak
        by_cases hbv : b = v
        · subst hbv
          simp [insertAdj, lookupAdj, List.count_append, List.count_cons]
        · have hvb : v ≠ b := fun h => hbv h.symm
          simp [insertAdj, lookupAdj, hbv, hvb, List.count_append, List.count_cons]
      · simp [insertAdj, lookupAdj, hak]
    · by_cases hak : a = k'
      · subst hak
        have : ¬(a = k ∧ b = v) := fun h => hkk h.1.symm
        simp [insertAdj, hkk, lookupAdj, this]
      · simp [insertAdj, hkk, lookupAdj, hak, ih]

lemma count_lookupAdj_foldl (S : List (α × α)) (g : List (α × List α)) (a b : α) :
    (lookupAdj (S.foldl (fun g s => insertAdj (insertAdj g s.1 s.2) s.2 s.1) g) a).count b =
      (lookupAdj g a).count b + S.count (a, b) + S.count (b, a) := by
  induction S generalizing g with
  | nil => simp
  | cons s S' ih =>
    obtain ⟨s1, s2⟩ := s
    simp only [List.foldl_cons]
    rw [ih, count_lookupAdj_insertAdj, count_lookupAdj_insertAdj]
    have h1 : ((s1, s2) :: S').count (a, b) =
        S'.count (a, b) + (if a = s1 ∧ b = s2 then 1 else 0) := by
      simp only [List.count_cons, beq_iff_eq, Prod.mk.injEq]
      congr 1
      by_cases h : a = s1 ∧ b = s2
      · rw [if_pos ⟨h.1.symm, h.2.symm⟩, if_pos h]
      · rw [if_neg (fun hh => h ⟨hh.1.symm, hh.2.symm⟩), if_neg h]
    have h2 : ((s1, s2) :: S').count (b, a) =
        S'.count (b, a) + (if a = s2 ∧ b = s1 then 1 else 0) := by
      simp only [List.count_cons, beq_iff_eq, Prod.mk.injEq]
      congr 1
      by_cases h : a = s2 ∧ b = s1
      · rw [if_pos ⟨h.2.symm, h.1.symm⟩, if_pos h]
      · rw [if_neg (fun hh => h ⟨hh.2.symm, hh.1.symm⟩), if_neg h]
    rw [h1, h2]
    omega

/-- The multiplicity of `b` in the neighbor list of `a` built by
`adjacency_from_set` counts the segments `(a,b)` plus the segments `(b,a)`. -/
lemma count_lookupAdj_adjacency (S : List (α × α)) (a b : α) :
    (lookupAdj (adjacency_from_set S) a).count b = S.count (a, b) + S.count (b, a) := by
  have h := count_lookupAdj_foldl S [] a b
  simpa [adjacency_from_set, lookupAdj] using h

lemma countP_joining_ne (a b : α) (hab : a ≠ b) (S : List (α × α)) :
    S.countP (fun s => decide (s = (a, b)) || decide (s = (b, a))) =
      S.count (a, b) + S.count (b, a) := by
  induction S with
  | nil => simp
  | cons s S' ih =>
    have hne : ((a, b) : α × α) ≠ (b, a) := by
      intro h
      exact hab (congrArg Prod.fst h)
    by_cases h1 : s = (a, b) <;> by_cases h2 : s = (b, a) <;>
      simp_all [List.countP_cons, List.count_cons] <;> omega

/-- Every segment of `S` joins a pair of distinct points when `S` satisfies the
Segment data-model invariant (an unordered pair of two distinct Points). -/
lemma countP_joining (S : List (α × α)) (a b : α) (hdist : ∀ s ∈ S, s.1 ≠ s.2) :
    S.countP (fun s => decide (s = (a, b)) || decide (s = (b, a))) =
      S.count (a, b) + S.count (b, a) := by
  by_cases hab : a = b
  · subst hab
    have hnot : (a, a) ∉ S := fun h => hdist _ h rfl
    have hz : S.count (a, a) = 0 := List.count_eq_zero.mpr hnot
    have hp : S.countP (fun s => decide (s = (a, a)) || decide (s = (a, a))) = 0 := by
      rw [List.countP_eq_zero]
      intro s hs
      simp only [Bool.or_self, decide_eq_true_eq]
      intro h
      exact hnot (h ▸ hs)
    rw [hp, hz]
  · exact countP_joining_ne a b hab S

/-- C1: for every finite set of segments `S` whose segments join distinct
points (the Segment data model), every segment `(a,b)` of `S` puts `b` in the
neighbor list of `a` and `a` in the neighbor list of `b` in
`adjacency_from_set S`, and the multiplicity of `b` in the neighbor list of `a`
equals the number of segments of `S` joining `a` and `b` in either
orientation. -/
theorem adjacency_from_set_entries (S : List (α × α)) (a b : α)
    (hdist : ∀ s ∈ S, s.1 ≠ s.2) :
    ((a, b) ∈ S →
      b ∈ lookupAdj (adjacency_from_set S) a ∧ a ∈ lookupAdj (adjacency_from_set S) b) ∧
    (lookupAdj (adjacency_from_set S) a).count b =
      S.countP (fun s => decide (s = (a, b)) || decide (s = (b, a))) := by
  constructor
  · intro hmem
    have hc : 0 < S.count (a, b) := List.count_pos_iff.mpr hmem
    constructor
    · rw [← List.count_pos_iff, count_lookupAdj_adjacency]
      omega
    · rw [← List.count_pos_iff, count_lookupAdj_adjacency]
      omega
  · rw [count_lookupAdj_adjacency, countP_joining S a b hdist]

theorem adjacency_from_set_entries_witness :
    (∀ s ∈ [((0 : ℕ), 1)], s.1 ≠ s.2) ∧
    (((0, 1) ∈ [((0 : ℕ), 1)] →
      1 ∈ lookupAdj (adjacency_from_set [((0 : ℕ), 1)]) 0 ∧
      0 ∈ lookupAdj (adjacency_from_set [((0 : ℕ), 1)]) 1) ∧
    (lookupAdj (adjacency_from_set [((0 : ℕ), 1)]) 0).count 1 =
      [((0 : ℕ), 1)].countP (fun s => decide (s = (0, 1)) || decide (s = (1, 0)))) :=
  ⟨by decide, adjacency_from_set_entries [((0 : ℕ), 1)] 0 1 (by decide)⟩

/-- C8: for every finite set of segments `S` and all points `a`, `b`, the
multiplicity of `b` in the neighbor list of `a` in `adjacency_from_set S`
equals the multiplicity of `a` in the neighbor list of `b`: the built adjacency
is symmetric as a multiset relation. -/
theorem adjacency_count_symm (S : List (α × α)) (a b : α) :
    (lookupAdj (adjacency_from_set S) a).count b =
      (lookupAdj (adjacency_from_set S) b).count a := by
  rw [count_lookupAdj_adjacency, count_lookupAdj_adjacency, Nat.add_comm]

/-! ### The vertex sets seen by the two branches of the pipeline -/

lemma mem_keys_insertAdj (g : List (α × List α)) (k v x : α) :
    x ∈ keys (insertAdj g k v) ↔ x ∈ keys g ∨ x = k := by
  induction g with
  | nil => simp [insertAdj, keys]
  | cons p rest ih =>
    obtain ⟨k', l⟩ := p
    by_cases hkk : k = k'
    · subst hkk
      simp [insertAdj, keys]
      tauto
    · simp [insertAdj, hkk, keys] at ih ⊢
      tauto

lemma mem_keys_adjacency_foldl (S : List (α × α)) (g : List (α × List α)) (x : α) :
    x ∈ keys (S.foldl (fun g s => insertAdj (insertAdj g s.1 s.2) s.2 s.1) g) ↔
      x ∈ keys g ∨ ∃ s ∈ S, x = s.1 ∨ x = s.2 := by
  induction S generalizing g with
  | nil => simp
  | cons s S' ih =>
    obtain ⟨s1, s2⟩ := s
    simp only [List.foldl_cons, ih, mem_keys_insertAdj, List.mem_cons]
    constructor
    · rintro (((h | h) | h) | ⟨t, ht, h⟩)
      · exact Or.inl h
      · exact Or.inr ⟨(s1, s2), Or.inl rfl, Or.inl h⟩
      · exact Or.inr ⟨(s1, s2), Or.inl rfl, Or.inr h⟩
      · exact Or.inr ⟨t, Or.inr ht, h⟩
    · rintro (h | ⟨t, ht | ht, h⟩)
      · exact Or.inl (Or.inl (Or.inl h))
      · subst ht
        rcases h with h | h
        · exact Or.inl (Or.inl (Or.inr h))
        · exact Or.inl (Or.inr h)
      · exact Or.inr ⟨t, ht, h⟩

lemma mem_insertNew (vs : List α) (x y : α) :
    x ∈ insertNew vs y ↔ x ∈ vs ∨ x = y := by
  unfold insertNew
  split
  · constructor
    · exact Or.inl
    · rintro (h | h)
      · exact h
      · subst h
        assumption
  · simp

lemma mem_vertices_foldl (S : List (α × α)) (vs : List α) (x : α) :
    x ∈ S.foldl (fun vs s => insertNew (insertNew vs s.1) s.2) vs ↔
      x ∈ vs ∨ ∃ s ∈ S, x = s.1 ∨ x = s.2 := by
  induction S generalizing vs with
  | nil => simp
  | cons s S' ih =>
    obtain ⟨s1, s2⟩ := s
    simp only [List.foldl_cons, ih, mem_insertNew, List.mem_cons]
    constructor
    · rintro (((h | h) | h) | ⟨t, ht, h⟩)
      · exact Or.inl h
      · exact Or.inr ⟨(s1, s2), Or.inl rfl, Or.inl h⟩
      · exact Or.inr ⟨(s1, s2), Or.inl rfl, Or.inr h⟩
      · exact Or.inr ⟨t, Or.inr ht, h⟩
    · rintro (h | ⟨t, ht | ht, h⟩)
      · exact Or.inl (Or.inl (Or.inl h))
      · subst ht
        rcases h with h | h
        · exact Or.inl (Or.inl (Or.inr h))
        · exact Or.inl (Or.inr h)
      · exact Or.inr ⟨t, ht, h⟩

/-- C6: the key set of `adjacency_from_set S` (the vertex set seen by the TSP
branch) coincides with `vertices_from_set S` (the vertex set seen by the
triangulation branch), and both are exactly the points occurring as an
endpoint of some segment of `S`. -/
theorem keys_adjacency_eq_vertices (S : List (α × α)) (x : α) :
    (x ∈ keys (adjacency_from_set S) ↔ x ∈ vertices_from_set S) ∧
    (x ∈ vertices_from_set S ↔ ∃ s ∈ S, x = s.1 ∨ x = s.2) := by
  have hk : x ∈ keys (adjacency_from_set S) ↔ ∃ s ∈ S, x = s.1 ∨ x = s.2 := by
    have h := mem_keys_adjacency_foldl S [] x
    simpa [adjacency_from_set, keys] using h
  have hv : x ∈ vertices_from_set S ↔ ∃ s ∈ S, x = s.1 ∨ x = s.2 := by
    have h := mem_vertices_foldl S [] x
    simpa [vertices_from_set] using h
  exact ⟨hk.trans hv.symm, hv⟩

/-! ### The cyclic pair generator `tour` -/

omit [DecidableEq α] in
/-- C2: on a non-empty list `[p0, ..., p(n-1)]` the generator `tour` yields
exactly `n` pairs, the `i`-th being `(p_i, p_((i+1) mod n))`: the consecutive
pairs in order, closed by the wrap-around pair `(p(n-1), p0)`. -/
theorem tour_pairs_spec (lst : List α) (h : lst ≠ []) :
    ∃ ps, tour lst = some ps ∧ ps.length = lst.length ∧
      ∀ i, i < lst.length → ∃ a b, lst[i]? = some a ∧
        lst[(i + 1) % lst.length]? = some b ∧ ps[i]? = some (a, b) := by
  obtain ⟨x, xs, rfl⟩ := List.exists_cons_of_ne_nil h
  refine ⟨tourPairs (x :: xs), rfl, ?_, ?_⟩
  · simp [tourPairs]
  · intro i hi
    have hi2 : i < (xs ++ [x]).length := by
      simp only [List.length_append, List.length_cons, List.length_nil]
      simp only [List.length_cons] at hi
      omega
    have hi' : i < (tourPairs (x :: xs)).length := by
      simp only [tourPairs, List.length_zip, List.length_cons, List.length_append,
        List.length_nil]
      simp only [List.length_cons] at hi
      omega
    refine ⟨(x :: xs)[i], (xs ++ [x])[i], List.getElem?_eq_getElem hi, ?_, ?_⟩
    · by_cases hlast : i + 1 = (x :: xs).length
      · have hmod : (i + 1) % (x :: xs).length = 0 := by
          rw [hlast, Nat.mod_self]
        have hieq : i = xs.length := by
          simp only [List.length_cons] at hlast
          omega
        have hx : (xs ++ [x])[i] = x := by
          rw [List.getElem_append_right (le_of_eq hieq.symm)]
          simp [hieq]
        rw [hmod, hx]
        simp
      · have hi1 : i + 1 < (x :: xs).length := by
          simp only [List.length_cons] at hi hlast ⊢
          omega
        have hix : i < xs.length := by
          simp only [List.length_cons] at hi1
          omega
        have hmod : (i + 1) % (x :: xs).length = i + 1 := Nat.mod_eq_of_lt hi1
        rw [hmod, List.getElem?_eq_getElem hi1]
        congr 1
        rw [List.getElem_cons_succ, List.getElem_append_left hix]
    · rw [List.getElem?_eq_getElem hi']
      congr 1
      simp only [tourPairs]
      rw [List.getElem_zip]

theorem tour_pairs_spec_witness :
    ([(0 : ℕ), 1, 2] ≠ []) ∧
    (∃ ps, tour [(0 : ℕ), 1, 2] = some ps ∧ ps.length = [(0 : ℕ), 1, 2].length ∧
      ∀ i, i < [(0 : ℕ), 1, 2].length → ∃ a b, [(0 : ℕ), 1, 2][i]? = some a ∧
        [(0 : ℕ), 1, 2][(i + 1) % [(0 : ℕ), 1, 2].length]? = some b ∧
        ps[i]? = some (a, b)) :=
  ⟨by decide, tour_pairs_spec [(0 : ℕ), 1, 2] (by decide)⟩

/-- C9: `tour` is partial at the empty list — iterating it raises an
IndexError from evaluating `lst[0]`, embedded as `none`, rather than yielding
an empty pair sequence — and `tour` succeeds on every non-empty list. -/
theorem tour_totality (β : Type) :
    tour ([] : List β) = none ∧ ∀ lst : List β, lst ≠ [] → (tour lst).isSome = true := by
  constructor
  · rfl
  · intro lst hl
    obtain ⟨x, xs, rfl⟩ := List.exists_cons_of_ne_nil hl
    rfl

theorem tour_totality_witness :
    tour ([] : List ℕ) = none ∧ ([1] ≠ ([] : List ℕ)) ∧ (tour [(1 : ℕ)]).isSome = true :=
  ⟨(tour_totality ℕ).1, by decide, (tour_totality ℕ).2 [1] (by decide)⟩

/-! ### The hull-edge triangle filter -/

/-- C4: the filtered triangulation keeps exactly the triangles of the input
none of whose `tour` edges occurs, in either orientation, among the
consecutive hull-edge pairs (wrap-around included); every triangle sharing at
least one edge with the hull is removed. -/
theorem triangulated_mem_iff (hull : List α) (triangles : List (List α)) (t : List α)
    (_hh : hull ≠ []) (_h3 : ∀ t' ∈ triangles, t'.length = 3) :
    t ∈ triangulated hull triangles ↔
      t ∈ triangles ∧ ∀ p q, (p, q) ∈ tourPairs t →
        (p, q) ∉ tourPairs hull ∧ (q, p) ∉ tourPairs hull := by
  simp only [triangulated, List.mem_filter, Bool.not_eq_eq_eq_not, Bool.not_true,
    adjoin_hull, List.any_eq_false, Bool.or_eq_true, decide_eq_true_eq, not_or]
  constructor
  · rintro ⟨hm, hall⟩
    exact ⟨hm, fun p q hpq => hall (p, q) hpq⟩
  · rintro ⟨hm, hall⟩
    exact ⟨hm, fun pq hpq => hall pq.1 pq.2 hpq⟩

theorem triangulated_mem_iff_witness :
    ([(3 : ℕ), 4] ≠ []) ∧ (∀ t' ∈ [[(0 : ℕ), 1, 2]], t'.length = 3) ∧
    ([(0 : ℕ), 1, 2] ∈ triangulated [3, 4] [[0, 1, 2]] ↔
      [(0 : ℕ), 1, 2] ∈ [[(0 : ℕ), 1, 2]] ∧ ∀ p q, (p, q) ∈ tourPairs [(0 : ℕ), 1, 2] →
        (p, q) ∉ tourPairs [(3 : ℕ), 4] ∧ (q, p) ∉ tourPairs [(3 : ℕ), 4]) :=
  ⟨by decide, by decide,
    triangulated_mem_iff [3, 4] [[0, 1, 2]] [0, 1, 2] (by decide) (by decide)⟩

/-- C5: for the unit square, with the hull listing the four corners in any of
the four cyclic rotations and the two Delaunay triangles given in any vertex
order, the hull-edge filter removes both triangles, leaving no triangle (and
hence no interior edge). -/
theorem unit_square_filter_empty :
    ∀ hull ∈ [[((0 : ℕ), (0 : ℕ)), (1, 0), (1, 1), (0, 1)],
              [(1, 0), (1, 1), (0, 1), (0, 0)],
              [(1, 1), (0, 1), (0, 0), (1, 0)],
              [(0, 1), (0, 0), (1, 0), (1, 1)]],
    ∀ t1 ∈ [[((0 : ℕ), (0 : ℕ)), (1, 0), (1, 1)], [(0, 0), (1, 1), (1, 0)],
            [(1, 0), (0, 0), (1, 1)], [(1, 0), (1, 1), (0, 0)],
            [(1, 1), (0, 0), (1, 0)], [(1, 1), (1, 0), (0, 0)]],
    ∀ t2 ∈ [[((0 : ℕ), (0 : ℕ)), (1, 1), (0, 1)], [(0, 0), (0, 1), (1, 1)],
            [(1, 1), (0, 0), (0, 1)], [(1, 1), (0, 1), (0, 0)],
            [(0, 1), (0, 0), (1, 1)], [(0, 1), (1, 1), (0, 0)]],
      triangulated hull [t1, t2] = [] := by decide

theorem unit_square_filter_empty_witness :
    triangulated [((0 : ℕ), (0 : ℕ)), (1, 0), (1, 1), (0, 1)]
      [[(0, 0), (1, 0), (1, 1)], [(0, 0), (1, 1), (0, 1)]] = [] :=
  unit_square_filter_empty _ (by decide) _ (by decide) _ (by decide)

/-! ### The trajectory assembler -/

lemma count_le_foldl_append (f : α → α → List α) (q : α) :
    ∀ (l : List (α × α)) (acc : List α),
      acc.count q ≤ (l.foldl (fun traj se => traj ++ f se.1 se.2) acc).count q := by
  intro l
  induction l with
  | nil =>
    intro acc
    exact Nat.le_refl _
  | cons se l' ih =>
    intro acc
    calc acc.count q ≤ (acc ++ f se.1 se.2).count q := by
          rw [List.count_append]
          exact Nat.le_add_right _ _
      _ ≤ _ := ih (acc ++ f se.1 se.2)

/-- C3 counterexample: on the complete graph over `{0, 1, 2}` with the
spec-described A* result, assembling the trajectory for the permutation
`[0, 1, 2]` concatenates the sub-paths `[0,1]`, `[1,2]`, `[2,0]` verbatim, so
the joint point `1` shared by the first two sub-paths appears twice, not
once. -/
theorem traj_joint_duplicated_cex :
    assembleTraj astarK3 [0, 1, 2] = [0, 1, 1, 2, 2, 0] ∧
    (assembleTraj astarK3 [0, 1, 2]).count 1 ≠ 1 ∧
    (assembleTraj astarK3 [0, 1, 2]).count 1 = 2 := by decide

/-- C3 amended: whenever the pathfinder returns sub-paths containing their two
endpoints (§4.4: a walk from start to end), the assembly loop of
`src/run_all.py` lines 121-125 concatenates the sub-paths verbatim, so the
point shared by two consecutive sub-paths appears at least twice in the final
trajectory instead of once. -/
theorem traj_joint_appears_twice (f : α → α → List α) (p q : α) (rest : List α)
    (hf : ∀ s e, s ∈ f s e ∧ e ∈ f s e) :
    2 ≤ (assembleTraj f (p :: q :: rest)).count q := by
  have hq1 : 1 ≤ (f p q).count q := List.count_pos_iff.mpr (hf p q).2
  cases rest with
  | nil =>
    have hq2 : 1 ≤ (f q p).count q := List.count_pos_iff.mpr (hf q p).1
    simp only [assembleTraj, tourPairs, List.zip, List.zipWith, List.foldl,
      List.nil_append, List.count_append]
    omega
  | cons r rs =>
    have hq2 : 1 ≤ (f q r).count q := List.count_pos_iff.mpr (hf q r).1
    simp only [assembleTraj, tourPairs]
    simp only [List.zip, List.zipWith, List.foldl, List.nil_append]
    calc 2 ≤ ((f p q) ++ f q r).count q := by
          rw [List.count_append]
          omega
      _ ≤ _ := count_le_foldl_append f q ((r :: rs).zipWith Prod.mk (rs ++ [p]))
          (f p q ++ f q r)

theorem traj_joint_appears_twice_witness :
    (∀ s e, s ∈ astarK3 s e ∧ e ∈ astarK3 s e) ∧
    2 ≤ (assembleTraj astarK3 [0, 1, 2]).count 1 :=
  have hf : ∀ s e, s ∈ astarK3 s e ∧ e ∈ astarK3 s e := by
    intro s e
    unfold astarK3
    split
    · simp_all
    · simp
  ⟨hf, traj_joint_appears_twice astarK3 0 1 [2] hf⟩

/-! ### The ACO solver returns a permutation of the vertex set -/

lemma get_cons_eraseIdx_perm (l : List α) (i : ℕ) (h : i < l.length) :
    (l.get ⟨i, h⟩ :: l.eraseIdx i).Perm l := by
  have h1 : l.Perm (l.get ⟨i, h⟩ :: l.erase (l.get ⟨i, h⟩)) :=
    List.perm_cons_erase (l.get_mem i h)
  have h2 := List.erase_getElem h
  exact ((h2.cons (l.get ⟨i, h⟩)).symm.trans h1.symm)

lemma constructPerm_perm_aux (c : List α → ℕ) :
    ∀ (n : ℕ) (r : List α), r.length ≤ n → (constructPerm c r).Perm r := by
  intro n
  induction n with
  | zero =>
    intro r hr
    have hnil : r = [] := List.eq_nil_of_length_eq_zero (Nat.le_zero.mp hr)
    subst hnil
    simp [constructPerm]
  | succ n ih =>
    intro r hr
    match r with
    | [] => simp [constructPerm]
    | x :: xs =>
      rw [constructPerm]
      have hi : c (x :: xs) % (xs.length + 1) < (x :: xs).length :=
        Nat.mod_lt _ (Nat.succ_pos _)
      have hlen : ((x :: xs).eraseIdx (c (x :: xs) % (xs.length + 1))).length ≤ n := by
        rw [List.length_eraseIdx, if_pos hi]
        simp only [List.length_cons] at hr ⊢
        omega
      have hperm := ih _ hlen
      exact (hperm.cons _).trans (get_cons_eraseIdx_perm (x :: xs) _ hi)

/-- Every run of the modelled ant-tour construction produces a permutation of
the vertex pool it starts from, whatever the per-step choices are. -/
lemma constructPerm_perm (c : List α → ℕ) (r : List α) : (constructPerm c r).Perm r :=
  constructPerm_perm_aux c r.length r le_rfl

omit [DecidableEq α] in
lemma foldl_best_mem (cost : List α → ℤ) :
    ∀ (l : List (List α)) (init : List α),
      l.foldl (fun best cand => if cost cand < cost best then cand else best) init ∈
        init :: l := by
  intro l
  induction l with
  | nil =>
    intro init
    simp
  | cons c l' ih =>
    intro init
    simp only [List.foldl_cons]
    have h := ih (if cost c < cost init then c else init)
    rcases List.mem_cons.mp h with h1 | h1
    · rw [h1]
      by_cases hc : cost c < cost init
      · rw [if_pos hc]
        exact List.mem_cons_of_mem _ (List.mem_cons_self _ _)
      · rw [if_neg hc]
        exact List.mem_cons_self _ _
    · exact List.mem_cons_of_mem _ (List.mem_cons_of_mem _ h1)

/-- C7: every run of the modelled ACO search on a graph with at least 2
vertices returns a tour whose permutation visits every vertex of the input
graph exactly once: it is a permutation of the graph's vertex list. -/
theorem acoSearch_perm (cost : List α → ℤ) (chooses : List (List α → ℕ))
    (choose0 : List α → ℕ) (g : List (α × List α)) (_h2 : 2 ≤ (keys g).length) :
    (acoSearch cost chooses choose0 g).Perm (keys g) := by
  unfold acoSearch
  have hmem := foldl_best_mem cost (chooses.map fun c => constructPerm c (keys g))
    (constructPerm choose0 (keys g))
  rcases List.mem_cons.mp hmem with h | h
  · rw [h]
    exact constructPerm_perm choose0 (keys g)
  · rcases List.mem_map.mp h with ⟨c, _, hc⟩
    rw [← hc]
    exact constructPerm_perm c (keys g)

theorem acoSearch_perm_witness :
    2 ≤ (keys (adjacency_from_set [((0 : ℕ), 1)])).length ∧
    (acoSearch (fun _ => 0) [] (fun _ => 0) (adjacency_from_set [((0 : ℕ), 1)])).Perm
      (keys (adjacency_from_set [((0 : ℕ), 1)])) :=
  ⟨by decide, acoSearch_perm _ [] _ _ (by decide)⟩

/-! ### The `--notsp` error branch -/

/-- C10: the `error_codes` table defines only the key `"NOTSP"`, so the lookup
of `"NO-TSP"` performed by the no-TSP error branch fails (the embedded
KeyError) and the branch never reaches the intended exit with status 100. -/
theorem notsp_branch_keyerror :
    dictLookup error_codes "NO-TSP" = none ∧
    dictLookup error_codes "NOTSP" = some 100 ∧
    notspBranch = Except.error "KeyError: NO-TSP" ∧
    ∀ c : ℕ, notspBranch ≠ Except.ok c := by
  have h3 : notspBranch = Except.error "KeyError: NO-TSP" := by
    simp [notspBranch, dictLookup, error_codes]
  refine ⟨by simp [dictLookup, error_codes], by simp [dictLookup, error_codes], h3, ?_⟩
  intro c hc
  rw [h3] at hc
  exact Except.noConfusion hc

example : tour [(0 : ℕ), 1, 2] = some [(0, 1), (1, 2), (2, 0)] := by decide

example : assembleTraj astarK3 [0, 1, 2] = [0, 1, 1, 2, 2, 0] := by decide

end Ubergeekism
